/-
Verification of the backtesting / portfolio simulation engine
(`src/backend/AI/backtester.py`, class `Backtester`).

Shallow embedding conventions:
* Python floats are modelled as exact rationals (ℚ); the claims under
  study are exact arithmetic identities of the algorithms.
* Python `int(x)` (truncation toward zero) is modelled by `pyInt`.
* Python dicts keyed by ticker are modelled as total functions from
  `String`; the code only ever accesses keys from the ticker list.
* A Python `KeyError` (e.g. a missing price in
  `calculate_portfolio_value`) is modelled by an `Option` result:
  `none` means the call raises.
* Dates are modelled as integer day numbers; `strftime` is injective on
  dates, so the source's string comparison of two dates is modelled as
  integer equality, and "30 days earlier" as subtraction by 30.
* `pandas.Series.std` (ddof = 1) of a one-element series is NaN, and
  every comparison `NaN > eps` is False in Python; with rational
  division-by-zero being 0 in Lean, the modelled standard deviation of a
  one-element list is 0, which drives every such comparison into the
  same branch as the Python code.
-/
import Mathlib

namespace Backtester

/-- One long position: `{"shares": ..., "cost_basis": ...}` in
`Backtester.__init__`. -/
structure Position where
  shares : ℤ
  cost_basis : ℚ
  deriving DecidableEq

/-- The portfolio ledger built in `Backtester.__init__`:
`{"cash": ..., "positions": {...}, "realized_gains": {...}}`. -/
structure Portfolio where
  cash : ℚ
  positions : String → Position
  realized_gains : String → ℚ

/-- The initial portfolio: initial capital in cash, zero shares and zero
cost basis per ticker, zero realized gains (lines 64-76 of
`backtester.py`). -/
def initPortfolio (initialCapital : ℚ) : Portfolio :=
  { cash := initialCapital
    positions := fun _ => { shares := 0, cost_basis := 0 }
    realized_gains := fun _ => 0 }

/-- Python `int(x)` on a float: truncation toward zero. -/
def pyInt (x : ℚ) : ℤ :=
  if 0 ≤ x then ⌊x⌋ else ⌈x⌉

/-- Model of `Backtester.execute_trade` (lines 78-143).  Returns the executed
quantity together with the updated portfolio. -/
def executeTrade (p : Portfolio) (ticker action : String)
    (quantity price : ℚ) : ℤ × Portfolio :=
  if quantity ≤ 0 then (0, p)
  else
    let q : ℤ := pyInt quantity
    let pos := p.positions ticker
    if action = "buy" then
      let cost : ℚ := q * price
      if cost ≤ p.cash then
        let totalShares : ℤ := pos.shares + q
        let newCB : ℚ :=
          if 0 < totalShares then
            (pos.cost_basis * pos.shares + cost) / totalShares
          else pos.cost_basis
        (q, { p with
              cash := p.cash - cost
              positions := fun x =>
                if x = ticker then
                  { shares := pos.shares + q, cost_basis := newCB }
                else p.positions x })
      else
        let maxQuantity : ℤ := pyInt (p.cash / price)
        if 0 < maxQuantity then
          let cost2 : ℚ := maxQuantity * price
          let totalShares : ℤ := pos.shares + maxQuantity
          let newCB : ℚ :=
            if 0 < totalShares then
              (pos.cost_basis * pos.shares + cost2) / totalShares
            else pos.cost_basis
          (maxQuantity, { p with
                cash := p.cash - cost2
                positions := fun x =>
                  if x = ticker then
                    { shares := pos.shares + maxQuantity, cost_basis := newCB }
                  else p.positions x })
        else (0, p)
    else if action = "sell" then
      let q2 : ℤ := min q pos.shares
      if 0 < q2 then
        let avgCost : ℚ := if 0 < pos.shares then pos.cost_basis else 0
        let realizedGain : ℚ := (price - avgCost) * q2
        let newShares : ℤ := pos.shares - q2
        (q2, { cash := p.cash + q2 * price
               positions := fun x =>
                 if x = ticker then
                   { shares := newShares
                     cost_basis := if newShares = 0 then 0 else pos.cost_basis }
                 else p.positions x
               realized_gains := fun x =>
                 if x = ticker then p.realized_gains x + realizedGain
                 else p.realized_gains x })
      else (0, p)
    else (0, p)

/-- The accumulator loop of `Backtester.calculate_portfolio_value`
(lines 145-162): walk the ticker list, adding `shares * price` for each
ticker; a missing price raises `KeyError`, modelled as `none`. -/
def valueAux (p : Portfolio) (prices : String → Option ℚ) :
    ℚ → List String → Option ℚ
  | total, [] => some total
  | total, t :: ts =>
    match prices t with
    | none => none
    | some pr => valueAux p prices (total + (p.positions t).shares * pr) ts

/-- Model of `Backtester.calculate_portfolio_value` (lines 145-162): cash plus
the long value of every tracked ticker; `current_prices[ticker]` raises
`KeyError` (`none`) when any tracked ticker has no price. -/
def calculatePortfolioValue (p : Portfolio) (tickers : List String)
    (prices : String → Option ℚ) : Option ℚ :=
  valueAux p prices p.cash tickers

/-! ### Performance metrics

`Backtester._update_performance_metrics` (lines 375-423) computes the
incremental Sharpe ratio, Sortino ratio and maximum drawdown over the
current list of daily portfolio values; `Backtester.analyze_performance`
(lines 425-516) recomputes a Sharpe ratio and (as a fallback) a maximum
drawdown over the same list at the end of the run.  Each assignment in
the Python code becomes one Lean function of the value series. -/

/-- The constant `daily_risk_free_rate = 0.0434 / 252` (line 385; line 460 uses the
same constant). -/
def dailyRF : ℚ := 0.0434 / 252

/-- Model of `values_df["Portfolio Value"].pct_change()` followed by `dropna()`
(lines 378-379): the consecutive-ratio returns, one fewer than the
number of values; the first (NaN) entry never enters the list. -/
def dailyReturns : List ℚ → List ℚ
  | a :: b :: rest => (b / a - 1) :: dailyReturns (b :: rest)
  | _ => []

/-- Model of `pandas.Series.mean`. -/
def meanQ (l : List ℚ) : ℚ := l.sum / l.length

/-- Model of `pandas.Series.var` with the default `ddof = 1` (sample variance);
a one-element series gives NaN in pandas, modelled as 0 here, which
sends every comparison `std > eps` into the same (False) branch. -/
def sampleVarQ (l : List ℚ) : ℚ :=
  (l.map (fun x => (x - meanQ l) ^ 2)).sum / ((l.length : ℚ) - 1)

/-- Model of `pandas.Series.std` with `ddof = 1`: the square root of the sample
variance. -/
noncomputable def stdQ (l : List ℚ) : ℝ :=
  Real.sqrt (sampleVarQ l)

/-- Model of `excess_returns = clean_returns - daily_risk_free_rate` (line 386). -/
def excessReturns (vs : List ℚ) : List ℚ :=
  (dailyReturns vs).map (fun r => r - dailyRF)

/-- The Sharpe-ratio assignment of `_update_performance_metrics`
(lines 381-394): `None` (no update) with fewer than 2 clean returns,
else `sqrt(252) * mean_excess / std_excess` when the standard deviation
exceeds `1e-12`, and `0.0` otherwise. -/
noncomputable def sharpeUpdate (vs : List ℚ) : Option ℝ :=
  if (dailyReturns vs).length < 2 then none
  else if (1e-12 : ℝ) < stdQ (excessReturns vs) then
    some (Real.sqrt 252 * ((meanQ (excessReturns vs) : ℝ) / stdQ (excessReturns vs)))
  else some 0

/-- The Sortino-ratio assignment of `_update_performance_metrics`
(lines 396-405): downside deviation over the strictly negative excess
returns; `+∞` (here `⊤ : EReal`) when there is no usable downside
deviation but the mean excess return is positive, else 0. -/
noncomputable def sortinoUpdate (vs : List ℚ) : Option EReal :=
  if (dailyReturns vs).length < 2 then none
  else if 0 < ((excessReturns vs).filter (fun r => decide (r < 0))).length then
    if (1e-12 : ℝ) < stdQ ((excessReturns vs).filter (fun r => decide (r < 0))) then
      some (((Real.sqrt 252 *
        ((meanQ (excessReturns vs) : ℝ) /
          stdQ ((excessReturns vs).filter (fun r => decide (r < 0))))) : ℝ) : EReal)
    else if 0 < meanQ (excessReturns vs) then some ⊤ else some 0
  else if 0 < meanQ (excessReturns vs) then some ⊤ else some 0

/-- Model of `(values - values.cummax()) / values.cummax()` (lines 408-409),
carrying the running maximum through the list. -/
def drawdownsAux : ℚ → List ℚ → List ℚ
  | _, [] => []
  | m, v :: rest =>
    ((v - max m v) / max m v) :: drawdownsAux (max m v) rest

/-- The drawdown series of a value series (empty for an empty series). -/
def drawdowns : List ℚ → List ℚ
  | [] => []
  | v :: rest => drawdownsAux v (v :: rest)

/-- Model of `pandas.Series.min` of a nonempty series (0 on the empty series,
which the call sites guard against). -/
def minListQ : List ℚ → ℚ
  | [] => 0
  | x :: xs => xs.foldl min x

/-- The maximum-drawdown assignment of `_update_performance_metrics`
(lines 407-423): `None` (no update) with fewer than 2 clean returns,
else `drawdown.min() * 100` when the drawdown series is nonempty, and
`0.0` otherwise. -/
def maxDrawdownUpdate (vs : List ℚ) : Option ℚ :=
  if (dailyReturns vs).length < 2 then none
  else if 0 < (drawdowns vs).length then some (minListQ (drawdowns vs) * 100)
  else some 0

/-- Model of `performance_df["Portfolio Value"].pct_change().fillna(0)`
(line 459): the first (NaN) return is replaced by 0 instead of being
dropped. -/
def dailyReturnsAnalyze (vs : List ℚ) : List ℚ :=
  match vs with
  | [] => []
  | _ :: _ => 0 :: dailyReturns vs

/-- The exhaustive Sharpe computation of `analyze_performance`
(lines 459-468): mean and standard deviation are taken over the
`fillna(0)` return series (length = number of records), the risk-free
rate is subtracted from the mean only, and the guard is `std != 0`. -/
noncomputable def sharpeAnalyze (vs : List ℚ) : ℝ :=
  if stdQ (dailyReturnsAnalyze vs) ≠ 0 then
    Real.sqrt 252 *
      (((meanQ (dailyReturnsAnalyze vs) - dailyRF : ℚ) : ℝ) /
        stdQ (dailyReturnsAnalyze vs))
  else 0

/-- The exhaustive maximum-drawdown fallback of `analyze_performance`
(lines 476-480): `drawdown.min() * 100` over the full series. -/
def maxDrawdownAnalyze (vs : List ℚ) : ℚ :=
  minListQ (drawdowns vs) * 100

/-! ### Simulation driver -/

/-- Model of `lookback_start = (current_date - timedelta(days=30)).strftime(...)`
(line 223), with dates as integer day numbers. -/
def lookbackStart (d : ℤ) : ℤ := d - 30

/-- One iteration of the date loop of `Backtester.run_backtest`
(lines 222-291), restricted to the state the claims are about (the
portfolio and the `portfolio_values` series).  `data d t` is the usable
close price of ticker `t` on day `d` (`none` when the price fetch fails
or returns no data); `agent d p` is the decision mapping returned by the
opaque agent, giving `(action, quantity)` per ticker. -/
def stepDay (tickers : List String) (data : ℤ → String → Option ℚ)
    (agent : ℤ → Portfolio → String → String × ℚ)
    (st : Portfolio × List (ℤ × ℚ)) (d : ℤ) : Portfolio × List (ℤ × ℚ) :=
  if lookbackStart d = d then st
  else if tickers.all (fun t => (data d t).isSome) then
    let decisions := agent d st.1
    let p' := tickers.foldl
      (fun p t =>
        (executeTrade p t (decisions t).1 (decisions t).2 ((data d t).getD 0)).2)
      st.1
    let totalValue := (calculatePortfolioValue p' tickers (data d)).getD 0
    (p', st.2 ++ [(d, totalValue)])
  else st

/-- Model of `Backtester.run_backtest` (lines 199-373), restricted to the
portfolio and the daily value series: the series is seeded with
`{dates[0], initial_capital}` when the date range is nonempty
(lines 216-220), then the date loop runs. -/
def runBacktest (tickers : List String) (dates : List ℤ)
    (data : ℤ → String → Option ℚ)
    (agent : ℤ → Portfolio → String → String × ℚ)
    (initialCapital : ℚ) : Portfolio × List (ℤ × ℚ) :=
  let seed : List (ℤ × ℚ) :=
    match dates with
    | [] => []
    | d :: _ => [(d, initialCapital)]
  dates.foldl (stepDay tickers data agent) (initPortfolio initialCapital, seed)

/-! ### Trade sequences and the ledger invariant -/

/-- One order handed to `execute_trade`. -/
structure Trade where
  ticker : String
  action : String
  quantity : ℚ
  price : ℚ

/-- Apply a sequence of orders via `execute_trade`, keeping the mutated
portfolio. -/
def applyTrades (p : Portfolio) (trades : List Trade) : Portfolio :=
  trades.foldl
    (fun q tr => (executeTrade q tr.ticker tr.action tr.quantity tr.price).2) p

/-- The ledger invariant of the spec: every position has a non-negative
share count, and a zero cost basis exactly when it has zero shares. -/
def PortfolioInv (p : Portfolio) : Prop :=
  ∀ t, 0 ≤ (p.positions t).shares ∧
    ((p.positions t).cost_basis = 0 ↔ (p.positions t).shares = 0)

/-- Strengthening of `PortfolioInv` that is inductive under trades at
positive fill prices: cost bases are additionally non-negative. -/
def StrongInv (p : Portfolio) : Prop :=
  ∀ t, 0 ≤ (p.positions t).shares ∧ 0 ≤ (p.positions t).cost_basis ∧
    ((p.positions t).cost_basis = 0 ↔ (p.positions t).shares = 0)

theorem pyInt_natCast (n : ℕ) : pyInt (n : ℚ) = n := by
  unfold pyInt
  rw [if_pos (by exact_mod_cast Nat.zero_le n)]
  exact Int.floor_natCast n

theorem pyInt_eq_floor {x : ℚ} (h : 0 ≤ x) : pyInt x = ⌊x⌋ := by
  unfold pyInt
  rw [if_pos h]

theorem executeTrade_nonpos {p : Portfolio} {ticker action : String}
    {quantity price : ℚ} (h : quantity ≤ 0) :
    executeTrade p ticker action quantity price = (0, p) := by
  unfold executeTrade
  rw [if_pos h]

theorem executeTrade_buy_full {p : Portfolio} {t : String} {quantity price : ℚ}
    (h0 : ¬ quantity ≤ 0) (hc : (pyInt quantity : ℚ) * price ≤ p.cash) :
    executeTrade p t "buy" quantity price =
      (pyInt quantity,
       { p with
          cash := p.cash - pyInt quantity * price
          positions := fun x =>
            if x = t then
              { shares := (p.positions t).shares + pyInt quantity
                cost_basis :=
                  if 0 < (p.positions t).shares + pyInt quantity then
                    ((p.positions t).cost_basis * (p.positions t).shares
                      + (pyInt quantity : ℚ) * price) /
                      (((p.positions t).shares + pyInt quantity : ℤ) : ℚ)
                  else (p.positions t).cost_basis }
            else p.positions x }) := by
  simp only [executeTrade]
  rw [if_neg h0, if_pos trivial, if_pos hc]

theorem executeTrade_buy_clamp {p : Portfolio} {t : String} {quantity price : ℚ}
    (h0 : ¬ quantity ≤ 0) (hc : ¬ (pyInt quantity : ℚ) * price ≤ p.cash)
    (hm : 0 < pyInt (p.cash / price)) :
    executeTrade p t "buy" quantity price =
      (pyInt (p.cash / price),
       { p with
          cash := p.cash - pyInt (p.cash / price) * price
          positions := fun x =>
            if x = t then
              { shares := (p.positions t).shares + pyInt (p.cash / price)
                cost_basis :=
                  if 0 < (p.positions t).shares + pyInt (p.cash / price) then
                    ((p.positions t).cost_basis * (p.positions t).shares
                      + (pyInt (p.cash / price) : ℚ) * price) /
                      (((p.positions t).shares + pyInt (p.cash / price) : ℤ) : ℚ)
                  else (p.positions t).cost_basis }
            else p.positions x }) := by
  simp only [executeTrade]
  rw [if_neg h0, if_pos trivial, if_neg hc, if_pos hm]

theorem executeTrade_buy_broke {p : Portfolio} {t : String} {quantity price : ℚ}
    (h0 : ¬ quantity ≤ 0) (hc : ¬ (pyInt quantity : ℚ) * price ≤ p.cash)
    (hm : ¬ 0 < pyInt (p.cash / price)) :
    executeTrade p t "buy" quantity price = (0, p) := by
  simp only [executeTrade]
  rw [if_neg h0, if_pos trivial, if_neg hc, if_neg hm]

theorem executeTrade_sell_pos {p : Portfolio} {t : String} {quantity price : ℚ}
    (h0 : ¬ quantity ≤ 0)
    (hq : 0 < min (pyInt quantity) (p.positions t).shares) :
    executeTrade p t "sell" quantity price =
      (min (pyInt quantity) (p.positions t).shares,
       { cash := p.cash + ((min (pyInt quantity) (p.positions t).shares : ℤ) : ℚ) * price
         positions := fun x =>
           if x = t then
             { shares :=
                 (p.positions t).shares - min (pyInt quantity) (p.positions t).shares
               cost_basis :=
                 if (p.positions t).shares
                     - min (pyInt quantity) (p.positions t).shares = 0 then 0
                 else (p.positions t).cost_basis }
           else p.positions x
         realized_gains := fun x =>
           if x = t then
             p.realized_gains x +
               (price - (if 0 < (p.positions t).shares
                  then (p.positions t).cost_basis else 0)) *
                 ((min (pyInt quantity) (p.positions t).shares : ℤ) : ℚ)
           else p.realized_gains x }) := by
  simp only [executeTrade]
  rw [if_neg h0, if_neg (by decide : ¬ ("sell" = "buy")), if_pos trivial, if_pos hq]

theorem executeTrade_sell_none {p : Portfolio} {t : String} {quantity price : ℚ}
    (h0 : ¬ quantity ≤ 0)
    (hq : ¬ 0 < min (pyInt quantity) (p.positions t).shares) :
    executeTrade p t "sell" quantity price = (0, p) := by
  simp only [executeTrade]
  rw [if_neg h0, if_neg (by decide : ¬ ("sell" = "buy")), if_pos trivial, if_neg hq]

theorem executeTrade_other {p : Portfolio} {ticker action : String}
    {quantity price : ℚ} (hbuy : action ≠ "buy") (hsell : action ≠ "sell") :
    executeTrade p ticker action quantity price = (0, p) := by
  unfold executeTrade
  split_ifs <;> rfl

/-- C10. The function `execute_trade` with any action other than `"buy"` or
`"sell"` (in particular `"short"`, `"cover"`, `"hold"`) returns 0 and
leaves the portfolio — cash, every position and every realized gain —
unchanged (the function falls through to the final `return 0` at line
143 without mutating anything). -/
theorem executeTrade_other_action (p : Portfolio) (ticker action : String)
    (quantity price : ℚ) (hbuy : action ≠ "buy") (hsell : action ≠ "sell") :
    executeTrade p ticker action quantity price = (0, p) :=
  executeTrade_other hbuy hsell

/-- Witness for C10: a concrete `"short"` order against the initial
portfolio is a no-op returning 0. -/
theorem executeTrade_other_action_witness :
    executeTrade (initPortfolio 1000) "AAPL" "short" 5 10 =
      (0, initPortfolio 1000) :=
  executeTrade_other_action (initPortfolio 1000) "AAPL" "short" 5 10
    (by decide) (by decide)

/-- C2. A buy of `n` whole shares at a positive price from a
portfolio with non-negative cash: the executed quantity never exceeds
`floor(cash / price)`, cash is debited by exactly the executed cost and
stays non-negative; the full request executes when affordable and
exactly `floor(cash / price)` shares (0 when even one share is
unaffordable) execute otherwise; whenever the merged position is
nonempty its cost basis is the weighted average of the old lot and the
executed lot. -/
theorem executeTrade_buy_spec (p : Portfolio) (t : String) (n : ℕ) (price : ℚ)
    (hcash : 0 ≤ p.cash) (hprice : 0 < price)
    (r : ℤ × Portfolio) (hr0 : executeTrade p t "buy" (n : ℚ) price = r) :
    r.1 ≤ ⌊p.cash / price⌋ ∧
    r.2.cash = p.cash - (r.1 : ℚ) * price ∧
    0 ≤ r.2.cash ∧
    ((n : ℚ) * price ≤ p.cash → r.1 = n) ∧
    (¬ (n : ℚ) * price ≤ p.cash → r.1 = ⌊p.cash / price⌋) ∧
    (0 < (p.positions t).shares + r.1 →
      (r.2.positions t).cost_basis =
        (((p.positions t).shares : ℚ) * (p.positions t).cost_basis
            + (r.1 : ℚ) * price) /
          (((p.positions t).shares : ℚ) + (r.1 : ℚ))) := by
  subst hr0
  have hfl : (0 : ℤ) ≤ ⌊p.cash / price⌋ :=
    Int.floor_nonneg.mpr (div_nonneg hcash hprice.le)
  rcases Nat.eq_zero_or_pos n with hn | hn
  · subst hn
    have hr : executeTrade p t "buy" ((0 : ℕ) : ℚ) price = (0, p) :=
      executeTrade_nonpos (by norm_num)
    rw [hr]
    refine ⟨hfl, by simp, hcash, fun _ => rfl, ?_, ?_⟩
    · intro hcon
      exact absurd (by simpa using hcash) hcon
    · intro hpos
      have hsh : (p.positions t).shares ≠ 0 := by simpa using hpos.ne'
      have hne : ((p.positions t).shares : ℚ) ≠ 0 := by exact_mod_cast hsh
      simp only [Prod.snd, Prod.fst, Int.cast_zero, zero_mul, add_zero]
      field_simp
  · have h0 : ¬ ((n : ℚ) ≤ 0) := by
      push_neg
      exact_mod_cast hn
    have hqn : pyInt (n : ℚ) = (n : ℤ) := pyInt_natCast n
    by_cases hc : (n : ℚ) * price ≤ p.cash
    · have hc' : (pyInt (n : ℚ) : ℚ) * price ≤ p.cash := by
        rw [hqn]
        exact_mod_cast hc
      have hr := executeTrade_buy_full (p := p) (t := t) h0 hc'
      rw [hr]
      refine ⟨?_, by simp, ?_, fun _ => hqn, fun hcon => absurd hc hcon, ?_⟩
      · rw [hqn]
        refine Int.le_floor.mpr ?_
        rw [le_div_iff₀ hprice]
        exact_mod_cast hc
      · simp only [Prod.snd]
        rw [hqn]
        have : ((n : ℤ) : ℚ) * price ≤ p.cash := by exact_mod_cast hc
        linarith
      · intro hpos
        simp only [Prod.fst, Prod.snd, hqn] at hpos ⊢
        simp only [if_pos rfl, if_pos hpos]
        push_cast
        ring_nf
    · have hc' : ¬ (pyInt (n : ℚ) : ℚ) * price ≤ p.cash := by
        rw [hqn]
        exact_mod_cast hc
      have hmq : pyInt (p.cash / price) = ⌊p.cash / price⌋ :=
        pyInt_eq_floor (div_nonneg hcash hprice.le)
      by_cases hm : 0 < pyInt (p.cash / price)
      · have hr := executeTrade_buy_clamp (p := p) (t := t) h0 hc' hm
        have hle : (⌊p.cash / price⌋ : ℚ) * price ≤ p.cash := by
          rw [← le_div_iff₀ hprice]
          exact_mod_cast Int.floor_le (p.cash / price)
        rw [hr]
        refine ⟨le_of_eq hmq, by simp, ?_, fun hcon => absurd hcon hc,
          fun _ => hmq, ?_⟩
        · simp only [Prod.snd]
          rw [hmq]
          linarith
        · intro hpos
          simp only [Prod.fst, Prod.snd] at hpos ⊢
          simp only [if_pos rfl, if_pos hpos]
          push_cast
          ring_nf
      · have hr := executeTrade_buy_broke (p := p) (t := t) h0 hc' hm
        have hm0 : ⌊p.cash / price⌋ = 0 := by
          rw [hmq] at hm
          omega
        rw [hr]
        refine ⟨hfl, by simp, hcash, fun hcon => absurd hcon hc,
          fun _ => hm0.symm, ?_⟩
        intro hpos
        have hsh : (p.positions t).shares ≠ 0 := by
          simp only [Prod.fst] at hpos
          omega
        have hne : ((p.positions t).shares : ℚ) ≠ 0 := by exact_mod_cast hsh
        simp only [Prod.snd, Prod.fst, Int.cast_zero, zero_mul, add_zero]
        field_simp

/-- Witness for C2: cash 10, price 3, request 5 shares; the clamp
executes `floor(10/3) = 3` shares. -/
theorem executeTrade_buy_spec_witness :
    (executeTrade (initPortfolio 10) "AAPL" "buy" ((5 : ℕ) : ℚ) 3).1 ≤
        ⌊(initPortfolio 10).cash / 3⌋ ∧
    (executeTrade (initPortfolio 10) "AAPL" "buy" ((5 : ℕ) : ℚ) 3).2.cash =
        (initPortfolio 10).cash -
          ((executeTrade (initPortfolio 10) "AAPL" "buy" ((5 : ℕ) : ℚ) 3).1 : ℚ) * 3 ∧
    0 ≤ (executeTrade (initPortfolio 10) "AAPL" "buy" ((5 : ℕ) : ℚ) 3).2.cash ∧
    (((5 : ℕ) : ℚ) * 3 ≤ (initPortfolio 10).cash →
      (executeTrade (initPortfolio 10) "AAPL" "buy" ((5 : ℕ) : ℚ) 3).1 = 5) ∧
    (¬ ((5 : ℕ) : ℚ) * 3 ≤ (initPortfolio 10).cash →
      (executeTrade (initPortfolio 10) "AAPL" "buy" ((5 : ℕ) : ℚ) 3).1 =
        ⌊(initPortfolio 10).cash / 3⌋) ∧
    (0 < ((initPortfolio 10).positions "AAPL").shares +
        (executeTrade (initPortfolio 10) "AAPL" "buy" ((5 : ℕ) : ℚ) 3).1 →
      ((executeTrade (initPortfolio 10) "AAPL" "buy" ((5 : ℕ) : ℚ) 3).2.positions "AAPL").cost_basis =
        ((((initPortfolio 10).positions "AAPL").shares : ℚ) *
            ((initPortfolio 10).positions "AAPL").cost_basis +
          ((executeTrade (initPortfolio 10) "AAPL" "buy" ((5 : ℕ) : ℚ) 3).1 : ℚ) * 3) /
          ((((initPortfolio 10).positions "AAPL").shares : ℚ) +
            ((executeTrade (initPortfolio 10) "AAPL" "buy" ((5 : ℕ) : ℚ) 3).1 : ℚ))) :=
  executeTrade_buy_spec (initPortfolio 10) "AAPL" 5 3
    (by norm_num [initPortfolio]) (by norm_num) _ rfl

/-- C3. A sell of `n` whole shares from a spec-valid position
(non-negative share count, zero cost basis exactly on an empty
position): exactly `min(n, held_shares)` shares execute — never more
than held and never an error — cash is credited by the executed
proceeds, the ticker's cumulative realized gain grows by
`(price - cost_basis) * executed`, and the cost basis is 0 whenever the
resulting position is empty. -/
theorem executeTrade_sell_spec (p : Portfolio) (t : String) (n : ℕ) (price : ℚ)
    (hsh : 0 ≤ (p.positions t).shares)
    (hinv : (p.positions t).cost_basis = 0 ↔ (p.positions t).shares = 0)
    (r : ℤ × Portfolio) (hr0 : executeTrade p t "sell" (n : ℚ) price = r) :
    r.1 = min (n : ℤ) (p.positions t).shares ∧
    r.2.cash = p.cash + (r.1 : ℚ) * price ∧
    r.2.realized_gains t =
      p.realized_gains t + (price - (p.positions t).cost_basis) * (r.1 : ℚ) ∧
    ((r.2.positions t).shares = 0 → (r.2.positions t).cost_basis = 0) := by
  subst hr0
  rcases Nat.eq_zero_or_pos n with hn | hn
  · subst hn
    have hr : executeTrade p t "sell" ((0 : ℕ) : ℚ) price = (0, p) :=
      executeTrade_nonpos (by norm_num)
    rw [hr]
    refine ⟨?_, by simp, by simp, fun h => hinv.mpr h⟩
    simp only [Prod.fst, Nat.cast_zero]
    omega
  · have h0 : ¬ ((n : ℚ) ≤ 0) := by
      push_neg
      exact_mod_cast hn
    have hqn : pyInt (n : ℚ) = (n : ℤ) := pyInt_natCast n
    by_cases hq : 0 < min (pyInt ((n : ℕ) : ℚ)) (p.positions t).shares
    · have hr := @executeTrade_sell_pos p t ((n : ℕ) : ℚ) price h0 hq
      have hshpos : 0 < (p.positions t).shares :=
        lt_of_lt_of_le hq (min_le_right _ _)
      rw [hr]
      refine ⟨by rw [hqn], by simp, ?_, ?_⟩
      · simp only [Prod.fst, Prod.snd, if_pos hshpos]
        rw [if_pos trivial]
      · intro h
        simp only [Prod.snd] at h ⊢
        rw [if_pos trivial] at h ⊢
        rw [if_pos h]
    · have hr := @executeTrade_sell_none p t ((n : ℕ) : ℚ) price h0 hq
      rw [hqn] at hq
      rw [hr]
      refine ⟨?_, by simp, by simp, fun h => hinv.mpr h⟩
      simp only [Prod.fst]
      omega

/-- Witness for C3: holding 10 shares at cost basis 4 with cash 50,
selling 20 at price 7 executes 10 shares, credits 70, realizes 30 and
empties the position. -/
theorem executeTrade_sell_spec_witness :
    (executeTrade
        { cash := 50
          positions := fun x => if x = "AAPL" then ⟨10, 4⟩ else ⟨0, 0⟩
          realized_gains := fun _ => 0 } "AAPL" "sell" ((20 : ℕ) : ℚ) 7).1 =
      min ((20 : ℕ) : ℤ)
        (({ cash := 50
            positions := fun x => if x = "AAPL" then ⟨10, 4⟩ else ⟨0, 0⟩
            realized_gains := fun _ => 0 } : Portfolio).positions "AAPL").shares ∧
    (executeTrade
        { cash := 50
          positions := fun x => if x = "AAPL" then ⟨10, 4⟩ else ⟨0, 0⟩
          realized_gains := fun _ => 0 } "AAPL" "sell" ((20 : ℕ) : ℚ) 7).2.cash =
      ({ cash := 50
         positions := fun x => if x = "AAPL" then ⟨10, 4⟩ else ⟨0, 0⟩
         realized_gains := fun _ => 0 } : Portfolio).cash +
        (((executeTrade
            { cash := 50
              positions := fun x => if x = "AAPL" then ⟨10, 4⟩ else ⟨0, 0⟩
              realized_gains := fun _ => 0 } "AAPL" "sell" ((20 : ℕ) : ℚ) 7).1 : ℚ)) * 7 ∧
    (executeTrade
        { cash := 50
          positions := fun x => if x = "AAPL" then ⟨10, 4⟩ else ⟨0, 0⟩
          realized_gains := fun _ => 0 } "AAPL" "sell" ((20 : ℕ) : ℚ) 7).2.realized_gains "AAPL" =
      ({ cash := 50
         positions := fun x => if x = "AAPL" then ⟨10, 4⟩ else ⟨0, 0⟩
         realized_gains := fun _ => 0 } : Portfolio).realized_gains "AAPL" +
        (7 - (({ cash := 50
                 positions := fun x => if x = "AAPL" then ⟨10, 4⟩ else ⟨0, 0⟩
                 realized_gains := fun _ => 0 } : Portfolio).positions "AAPL").cost_basis) *
          (((executeTrade
              { cash := 50
                positions := fun x => if x = "AAPL" then ⟨10, 4⟩ else ⟨0, 0⟩
                realized_gains := fun _ => 0 } "AAPL" "sell" ((20 : ℕ) : ℚ) 7).1 : ℚ)) ∧
    (((executeTrade
        { cash := 50
          positions := fun x => if x = "AAPL" then ⟨10, 4⟩ else ⟨0, 0⟩
          realized_gains := fun _ => 0 } "AAPL" "sell" ((20 : ℕ) : ℚ) 7).2.positions "AAPL").shares = 0 →
      ((executeTrade
          { cash := 50
            positions := fun x => if x = "AAPL" then ⟨10, 4⟩ else ⟨0, 0⟩
            realized_gains := fun _ => 0 } "AAPL" "sell" ((20 : ℕ) : ℚ) 7).2.positions "AAPL").cost_basis = 0) :=
  executeTrade_sell_spec
    { cash := 50
      positions := fun x => if x = "AAPL" then ⟨10, 4⟩ else ⟨0, 0⟩
      realized_gains := fun _ => 0 } "AAPL" 20 7 (by norm_num) (by norm_num)
    _ rfl

/-- C4. Round-trip law: from the initial portfolio with cash
`C ≥ N * P1` and no position, buying `N > 0` shares at `P1 > 0` and
then selling all `N` at `P2 > 0` yields a realized gain of exactly
`N * (P2 - P1)`, final cash `C + N * (P2 - P1)`, and an empty position
with zero cost basis. -/
theorem roundTrip_realized_gain (t : String) (N : ℕ) (P1 P2 C : ℚ)
    (hN : 0 < N) (hP1 : 0 < P1) (hP2 : 0 < P2)
    (hC : (N : ℚ) * P1 ≤ C)
    (p1 p2 : Portfolio)
    (h1 : (executeTrade (initPortfolio C) t "buy" (N : ℚ) P1).2 = p1)
    (h2 : (executeTrade p1 t "sell" (N : ℚ) P2).2 = p2) :
    p2.realized_gains t = (N : ℚ) * (P2 - P1) ∧
    p2.cash = C + (N : ℚ) * (P2 - P1) ∧
    (p2.positions t).shares = 0 ∧
    (p2.positions t).cost_basis = 0 := by
  have h0 : ¬ ((N : ℚ) ≤ 0) := by
    push_neg
    exact_mod_cast hN
  have hqn : pyInt (N : ℚ) = (N : ℤ) := pyInt_natCast N
  have hNQ : ((N : ℤ) : ℚ) ≠ 0 := by
    exact_mod_cast hN.ne'
  have hc' : (pyInt ((N : ℕ) : ℚ) : ℚ) * P1 ≤ (initPortfolio C).cash := by
    rw [hqn]
    exact_mod_cast hC
  have hbuy := executeTrade_buy_full (p := initPortfolio C) (t := t) h0 hc'
  rw [hbuy] at h1
  have hp1cash : p1.cash = C - (N : ℚ) * P1 := by
    rw [← h1]
    simp [initPortfolio, hqn]
  have hp1shares : (p1.positions t).shares = (N : ℤ) := by
    rw [← h1]
    simp [initPortfolio, hqn]
  have hp1cb : (p1.positions t).cost_basis = P1 := by
    rw [← h1]
    simp only [initPortfolio, hqn, Prod.snd]
    rw [if_pos trivial]
    simp only []
    rw [if_pos (by rw [zero_add]; exact_mod_cast hN : (0 : ℤ) < 0 + (N : ℤ))]
    push_cast
    field_simp
  have hp1rg : p1.realized_gains t = 0 := by
    rw [← h1]
    simp [initPortfolio]
  have hq : 0 < min (pyInt ((N : ℕ) : ℚ)) (p1.positions t).shares := by
    rw [hqn, hp1shares]
    simp only [min_self]
    exact_mod_cast hN
  have hsell := @executeTrade_sell_pos p1 t ((N : ℕ) : ℚ) P2 h0 hq
  rw [hsell] at h2
  have hmin : min (pyInt ((N : ℕ) : ℚ)) (p1.positions t).shares = (N : ℤ) := by
    rw [hqn, hp1shares, min_self]
  refine ⟨?_, ?_, ?_, ?_⟩
  · rw [← h2]
    simp only [Prod.snd]
    rw [if_pos trivial, hmin, hp1rg, hp1cb]
    rw [if_pos (by rw [hp1shares]; exact_mod_cast hN)]
    push_cast
    ring
  · rw [← h2]
    simp only [Prod.snd]
    rw [hmin, hp1cash]
    push_cast
    ring
  · rw [← h2]
    simp only [Prod.snd]
    rw [if_pos trivial, hmin, hp1shares]
    exact sub_self _
  · rw [← h2]
    simp only [Prod.snd]
    rw [if_pos trivial]
    simp only []
    rw [if_pos (by rw [hmin, hp1shares]; exact sub_self _)]

/-- Witness for C4: buy 2 shares at 3, sell them at 5, from cash 10:
realized gain 4, final cash 14, empty position. -/
theorem roundTrip_realized_gain_witness :
    (executeTrade (executeTrade (initPortfolio 10) "AAPL" "buy" ((2 : ℕ) : ℚ) 3).2
        "AAPL" "sell" ((2 : ℕ) : ℚ) 5).2.realized_gains "AAPL" =
      ((2 : ℕ) : ℚ) * (5 - 3) ∧
    (executeTrade (executeTrade (initPortfolio 10) "AAPL" "buy" ((2 : ℕ) : ℚ) 3).2
        "AAPL" "sell" ((2 : ℕ) : ℚ) 5).2.cash = 10 + ((2 : ℕ) : ℚ) * (5 - 3) ∧
    ((executeTrade (executeTrade (initPortfolio 10) "AAPL" "buy" ((2 : ℕ) : ℚ) 3).2
        "AAPL" "sell" ((2 : ℕ) : ℚ) 5).2.positions "AAPL").shares = 0 ∧
    ((executeTrade (executeTrade (initPortfolio 10) "AAPL" "buy" ((2 : ℕ) : ℚ) 3).2
        "AAPL" "sell" ((2 : ℕ) : ℚ) 5).2.positions "AAPL").cost_basis = 0 :=
  roundTrip_realized_gain "AAPL" 2 3 5 10 (by norm_num) (by norm_num) (by norm_num)
    (by norm_num) _ _ rfl rfl

theorem buy_merge_strongInv {sh : ℤ} {cb price : ℚ} (q : ℤ)
    (hq : 0 ≤ q) (hsh : 0 ≤ sh) (hcb : 0 ≤ cb) (hiff : cb = 0 ↔ sh = 0)
    (hpr : 0 < price) :
    0 ≤ sh + q ∧
    0 ≤ (if 0 < sh + q then (cb * sh + (q : ℚ) * price) / ((sh + q : ℤ) : ℚ)
         else cb) ∧
    ((if 0 < sh + q then (cb * sh + (q : ℚ) * price) / ((sh + q : ℤ) : ℚ)
      else cb) = 0 ↔ sh + q = 0) := by
  refine ⟨add_nonneg hsh hq, ?_, ?_⟩ <;> by_cases hpos : 0 < sh + q
  · rw [if_pos hpos]
    have hnum : 0 ≤ cb * sh + (q : ℚ) * price := by
      have h1 : (0 : ℚ) ≤ cb * sh := mul_nonneg hcb (by exact_mod_cast hsh)
      have h2 : (0 : ℚ) ≤ (q : ℚ) * price :=
        mul_nonneg (by exact_mod_cast hq) hpr.le
      linarith
    exact div_nonneg hnum (by exact_mod_cast hpos.le)
  · rw [if_neg hpos]
    exact hcb
  · rw [if_pos hpos]
    have hden : (0 : ℚ) < ((sh + q : ℤ) : ℚ) := by exact_mod_cast hpos
    have hnum : 0 < cb * sh + (q : ℚ) * price := by
      rcases eq_or_lt_of_le hq with hq0 | hq0
      · have hshpos : 0 < sh := by omega
        have hcbpos : 0 < cb :=
          lt_of_le_of_ne hcb (fun h => by
            have := hiff.mp h.symm
            omega)
        have : (0 : ℚ) < cb * sh := mul_pos hcbpos (by exact_mod_cast hshpos)
        have hqz : (q : ℚ) = 0 := by exact_mod_cast hq0.symm
        rw [hqz]
        linarith
      · have h2 : (0 : ℚ) < (q : ℚ) * price :=
          mul_pos (by exact_mod_cast hq0) hpr
        have h1 : (0 : ℚ) ≤ cb * sh := mul_nonneg hcb (by exact_mod_cast hsh)
        linarith
    constructor
    · intro h
      rw [div_eq_zero_iff] at h
      rcases h with h | h
      · exact absurd h hnum.ne'
      · exact absurd h hden.ne'
    · intro h
      omega
  · rw [if_neg hpos]
    have hshz : sh = 0 := by omega
    have hqz : q = 0 := by omega
    constructor
    · intro _
      omega
    · intro _
      exact hiff.mpr hshz

theorem executeTrade_strongInv (p : Portfolio) (ticker action : String)
    (quantity price : ℚ) (hpr : 0 < price) (hp : StrongInv p) :
    StrongInv (executeTrade p ticker action quantity price).2 := by
  by_cases h0 : quantity ≤ 0
  · rw [executeTrade_nonpos h0]
    exact hp
  · have hqnn : 0 ≤ pyInt quantity := by
      rw [pyInt_eq_floor (by push_neg at h0; exact h0.le)]
      exact Int.floor_nonneg.mpr (by push_neg at h0; exact h0.le)
    by_cases hb : action = "buy"
    · subst hb
      by_cases hc : (pyInt quantity : ℚ) * price ≤ p.cash
      · rw [executeTrade_buy_full h0 hc]
        intro t
        by_cases ht : t = ticker
        · subst ht
          simp only [Prod.snd, if_pos rfl]
          exact buy_merge_strongInv (pyInt quantity) hqnn (hp t).1 (hp t).2.1
            (hp t).2.2 hpr
        · simp only [Prod.snd, if_neg ht]
          exact hp t
      · by_cases hm : 0 < pyInt (p.cash / price)
        · rw [executeTrade_buy_clamp h0 hc hm]
          intro t
          by_cases ht : t = ticker
          · subst ht
            simp only [Prod.snd, if_pos rfl]
            exact buy_merge_strongInv (pyInt (p.cash / price)) hm.le (hp t).1
              (hp t).2.1 (hp t).2.2 hpr
          · simp only [Prod.snd, if_neg ht]
            exact hp t
        · rw [executeTrade_buy_broke h0 hc hm]
          exact hp
    · by_cases hs : action = "sell"
      · subst hs
        by_cases hq : 0 < min (pyInt quantity) (p.positions ticker).shares
        · rw [executeTrade_sell_pos h0 hq]
          intro t
          by_cases ht : t = ticker
          · subst ht
            simp only [Prod.snd]
            rw [if_pos trivial]
            have hle : min (pyInt quantity) (p.positions t).shares ≤
                (p.positions t).shares := min_le_right _ _
            have hshpos : 0 < (p.positions t).shares :=
              lt_of_lt_of_le hq (min_le_right _ _)
            refine ⟨?_, ?_, ?_⟩
            · show 0 ≤ (p.positions t).shares -
                min (pyInt quantity) (p.positions t).shares
              omega
            · show 0 ≤ (if (p.positions t).shares -
                    min (pyInt quantity) (p.positions t).shares = 0
                  then (0 : ℚ) else (p.positions t).cost_basis)
              split_ifs with hz
              · exact le_refl 0
              · exact (hp t).2.1
            · show (if (p.positions t).shares -
                    min (pyInt quantity) (p.positions t).shares = 0
                  then (0 : ℚ) else (p.positions t).cost_basis) = 0 ↔
                (p.positions t).shares -
                  min (pyInt quantity) (p.positions t).shares = 0
              split_ifs with hz
              · exact ⟨fun _ => hz, fun _ => rfl⟩
              · have hcbne : (p.positions t).cost_basis ≠ 0 := fun h => by
                  have := (hp t).2.2.mp h
                  omega
                exact ⟨fun h => absurd h hcbne, fun h => absurd h hz⟩
          · simp only [Prod.snd, if_neg ht]
            exact hp t
        · rw [executeTrade_sell_none h0 hq]
          exact hp
      · rw [executeTrade_other hb hs]
        exact hp

theorem applyTrades_strongInv (trades : List Trade) (p : Portfolio)
    (hp : StrongInv p) (hprices : ∀ tr ∈ trades, 0 < tr.price) :
    StrongInv (applyTrades p trades) := by
  induction trades generalizing p with
  | nil => exact hp
  | cons tr rest ih =>
    have hstep := executeTrade_strongInv p tr.ticker tr.action tr.quantity
      tr.price (hprices tr (by simp)) hp
    exact ih _ hstep (fun x hx => hprices x (by simp [hx]))

theorem strongInv_initPortfolio (C : ℚ) : StrongInv (initPortfolio C) := by
  intro t
  refine ⟨le_refl 0, le_refl 0, ?_⟩
  simp [initPortfolio]

/-- Counterexample to C1 as stated: `execute_trade` accepts a fill price
of 0 (no validation in lines 78-90), and a buy of 1 share at price 0
from the initial portfolio produces a position with `shares = 1` and
`cost_basis = 0`, violating `cost_basis == 0 ⟺ shares == 0`. -/
theorem tradeSequence_invariant_counterexample :
    ((executeTrade (initPortfolio 1000) "AAPL" "buy" 1 0).2.positions "AAPL").shares = 1 ∧
    ((executeTrade (initPortfolio 1000) "AAPL" "buy" 1 0).2.positions "AAPL").cost_basis = 0 ∧
    ¬ PortfolioInv (executeTrade (initPortfolio 1000) "AAPL" "buy" 1 0).2 := by
  have hs : ((executeTrade (initPortfolio 1000) "AAPL" "buy" 1 0).2.positions "AAPL").shares = 1 := by
    norm_num [executeTrade, pyInt, initPortfolio]
  have hc : ((executeTrade (initPortfolio 1000) "AAPL" "buy" 1 0).2.positions "AAPL").cost_basis = 0 := by
    norm_num [executeTrade, pyInt, initPortfolio]
  refine ⟨hs, hc, fun h => ?_⟩
  have := (h "AAPL").2.mp hc
  omega

/-- C1 (amended). For every sequence of `execute_trade` calls with
actions buy/sell at *positive* fill prices (the claim fails at fill
price 0, which the interface accepts without validation), starting from
the initial portfolio with any initial cash, the resulting portfolio
satisfies `shares ≥ 0` and `cost_basis = 0 ⟺ shares = 0` for every
ticker.  Since every prefix of a trade sequence is itself a trade
sequence, this gives the invariant after every call. -/
theorem tradeSequence_invariant (C : ℚ) (trades : List Trade)
    (hprices : ∀ tr ∈ trades, 0 < tr.price)
    (_hactions : ∀ tr ∈ trades, tr.action = "buy" ∨ tr.action = "sell") :
    PortfolioInv (applyTrades (initPortfolio C) trades) := by
  have h := applyTrades_strongInv trades (initPortfolio C)
    (strongInv_initPortfolio C) hprices
  intro t
  exact ⟨(h t).1, (h t).2.2⟩

/-- Witness for the amended C1: a buy of 3 at price 5 followed by an
oversized sell of 7 at price 6 keeps the invariant. -/
theorem tradeSequence_invariant_witness :
    PortfolioInv (applyTrades (initPortfolio 1000)
      [⟨"AAPL", "buy", 3, 5⟩, ⟨"AAPL", "sell", 7, 6⟩]) :=
  tradeSequence_invariant 1000
    [⟨"AAPL", "buy", 3, 5⟩, ⟨"AAPL", "sell", 7, 6⟩]
    (by decide) (by decide)

theorem valueAux_all_some (p : Portfolio) (prices : String → Option ℚ)
    (ts : List String) (h : ∀ t ∈ ts, (prices t).isSome) (acc : ℚ) :
    valueAux p prices acc ts =
      some (acc +
        (ts.map (fun t => ((p.positions t).shares : ℚ) * (prices t).getD 0)).sum) := by
  induction ts generalizing acc with
  | nil => simp [valueAux]
  | cons t ts ih =>
    obtain ⟨pr, hpr⟩ := Option.isSome_iff_exists.mp (h t (by simp))
    simp only [valueAux, hpr]
    rw [ih (fun x hx => h x (by simp [hx]))]
    congr 1
    simp only [List.map_cons, List.sum_cons, hpr, Option.getD_some]
    ring

theorem valueAux_missing (p : Portfolio) (prices : String → Option ℚ)
    (ts : List String) (h : ∃ t ∈ ts, prices t = none) (acc : ℚ) :
    valueAux p prices acc ts = none := by
  induction ts generalizing acc with
  | nil => simp at h
  | cons t ts ih =>
    rcases h with ⟨x, hx, hnone⟩
    rcases List.mem_cons.mp hx with rfl | hmem
    · simp only [valueAux, hnone]
    · simp only [valueAux]
      cases hpt : prices t
      · rfl
      · exact ih ⟨x, hmem, hnone⟩ _

/-- Counterexample to C6 as stated: the claim's precondition asks for a
price only for tickers with a nonzero share count.  With one tracked
ticker holding zero shares and an empty price mapping the precondition
holds, and the claim demands the value `some cash = some 7`; but
`calculate_portfolio_value` indexes `current_prices[ticker]` for every
*tracked* ticker (line 156), so the call raises `KeyError` (`none`)
instead. -/
theorem calculatePortfolioValue_counterexample :
    ((initPortfolio 7).positions "AAPL").shares = 0 ∧
    calculatePortfolioValue (initPortfolio 7) ["AAPL"]
      (fun _ => none) = none :=
  ⟨rfl, rfl⟩

/-- C6 (amended). The valuation `calculate_portfolio_value` is a pure function of
the portfolio and the price mapping; given a price for every *tracked*
ticker (not merely every held one) it returns
`cash + Σ shares * price`, and it fails fast (`KeyError`, modelled
`none`) whenever any tracked ticker — held or not — has no price. -/
theorem calculatePortfolioValue_spec (p : Portfolio) (tickers : List String)
    (prices : String → Option ℚ) :
    ((∀ t ∈ tickers, (prices t).isSome) →
      calculatePortfolioValue p tickers prices =
        some (p.cash +
          (tickers.map
            (fun t => ((p.positions t).shares : ℚ) * (prices t).getD 0)).sum)) ∧
    ((∃ t ∈ tickers, prices t = none) →
      calculatePortfolioValue p tickers prices = none) :=
  ⟨fun h => valueAux_all_some p prices tickers h p.cash,
   fun h => valueAux_missing p prices tickers h p.cash⟩

/-- Witness for the amended C6: one ticker priced at 5, zero shares,
cash 7: the value is `some 7`. -/
theorem calculatePortfolioValue_spec_witness :
    calculatePortfolioValue (initPortfolio 7) ["AAPL"]
        (fun _ => some (5 : ℚ)) =
      some ((initPortfolio 7).cash +
        ((["AAPL"].map
          (fun t => (((initPortfolio 7).positions t).shares : ℚ) *
            (((fun _ => some (5 : ℚ)) : String → Option ℚ) t).getD 0)).sum)) :=
  (calculatePortfolioValue_spec (initPortfolio 7) ["AAPL"]
    (fun _ => some (5 : ℚ))).1 (fun t _ => rfl)

theorem lookbackStart_ne (d : ℤ) : lookbackStart d ≠ d := by
  unfold lookbackStart
  omega

theorem stepDay_missing_data {tickers : List String}
    {data : ℤ → String → Option ℚ}
    {agent : ℤ → Portfolio → String → String × ℚ}
    (st : Portfolio × List (ℤ × ℚ)) (d : ℤ)
    (h : ∃ t ∈ tickers, data d t = none) :
    stepDay tickers data agent st d = st := by
  unfold stepDay
  rcases h with ⟨t, ht, hnone⟩
  have hall : ¬ (tickers.all (fun t => (data d t).isSome) = true) := by
    simp only [List.all_eq_true]
    push_neg
    exact ⟨t, ht, by simp [hnone]⟩
  rw [if_neg (lookbackStart_ne d), if_neg hall]

theorem stepDay_usable {tickers : List String}
    {data : ℤ → String → Option ℚ}
    {agent : ℤ → Portfolio → String → String × ℚ}
    (st : Portfolio × List (ℤ × ℚ)) (d : ℤ)
    (hall : tickers.all (fun t => (data d t).isSome) = true) :
    stepDay tickers data agent st d =
      (tickers.foldl (fun p t =>
          (executeTrade p t ((agent d st.1) t).1 ((agent d st.1) t).2
            ((data d t).getD 0)).2) st.1,
       st.2 ++ [(d, (calculatePortfolioValue
          (tickers.foldl (fun p t =>
            (executeTrade p t ((agent d st.1) t).1 ((agent d st.1) t).2
              ((data d t).getD 0)).2) st.1) tickers (data d)).getD 0)]) := by
  unfold stepDay
  rw [if_neg (lookbackStart_ne d), if_pos hall]

theorem foldl_stepDay_map_fst (tickers : List String)
    (data : ℤ → String → Option ℚ)
    (agent : ℤ → Portfolio → String → String × ℚ)
    (dates : List ℤ) (p : Portfolio) (rec : List (ℤ × ℚ)) :
    ((dates.foldl (stepDay tickers data agent) (p, rec)).2).map Prod.fst =
      rec.map Prod.fst ++
        dates.filter (fun d => tickers.all (fun t => (data d t).isSome)) := by
  induction dates generalizing p rec with
  | nil => simp
  | cons d rest ih =>
    rw [List.foldl_cons]
    by_cases hall : tickers.all (fun t => (data d t).isSome) = true
    · rw [stepDay_usable (p, rec) d hall]
      rw [ih]
      simp [List.filter_cons, hall]
    · have hmiss : ∃ t ∈ tickers, data d t = none := by
        simp only [List.all_eq_true] at hall
        push_neg at hall
        rcases hall with ⟨t, ht, hx⟩
        exact ⟨t, ht, Option.not_isSome_iff_eq_none.mp (by simpa using hx)⟩
      rw [stepDay_missing_data (p, rec) d hmiss, ih]
      simp [List.filter_cons, hall]

/-- Counterexample to C7 as stated: with one ticker, a one-day range and
usable prices, the day `10` ends up with *two* records — the series is
pre-seeded with `{dates[0], initial_capital}` before the loop
(lines 216-218) and the loop appends a second record for the same day —
whereas the claim says each simulated day with usable data gains exactly
one record. -/
theorem runBacktest_records_counterexample :
    ((runBacktest ["AAPL"] [10] (fun _ _ => some 5)
        (fun _ _ _ => ("hold", 0)) 1000).2).map Prod.fst = [10, 10] ∧
    (((runBacktest ["AAPL"] [10] (fun _ _ => some 5)
        (fun _ _ _ => ("hold", 0)) 1000).2).map Prod.fst).count 10 = 2 := by
  have h : ((runBacktest ["AAPL"] [10] (fun _ _ => some 5)
      (fun _ _ _ => ("hold", 0)) 1000).2).map Prod.fst = [10, 10] := by
    norm_num [runBacktest, stepDay, lookbackStart, executeTrade,
      calculatePortfolioValue, valueAux, initPortfolio]
  exact ⟨h, by rw [h]; rfl⟩

/-- C7 (amended). The daily value series is append-only and, for a
date range sorted in ascending order, sorted by date; each simulated day
with usable price data for all tracked tickers contributes exactly one
loop record, and skipped days contribute none — except that the series
is pre-seeded with one extra record `{dates[0], initial_capital}` before
the loop runs, so the first day of the range carries a record even when
it has no usable data, and two records when it does. -/
theorem runBacktest_records_spec (tickers : List String) (dates : List ℤ)
    (data : ℤ → String → Option ℚ)
    (agent : ℤ → Portfolio → String → String × ℚ) (C : ℚ)
    (hsorted : dates.Sorted (· ≤ ·)) :
    (runBacktest tickers dates data agent C).2.map Prod.fst =
      (match dates with
       | [] => ([] : List ℤ)
       | d :: _ => [d]) ++
        dates.filter (fun d => tickers.all (fun t => (data d t).isSome)) ∧
    List.Sorted (· ≤ ·) ((runBacktest tickers dates data agent C).2.map Prod.fst) := by
  have hmain : (runBacktest tickers dates data agent C).2.map Prod.fst =
      (match dates with
       | [] => ([] : List ℤ)
       | d :: _ => [d]) ++
        dates.filter (fun d => tickers.all (fun t => (data d t).isSome)) := by
    unfold runBacktest
    cases dates with
    | nil => rfl
    | cons d rest =>
      rw [foldl_stepDay_map_fst]
      rfl
  refine ⟨hmain, ?_⟩
  rw [hmain]
  cases dates with
  | nil => simp
  | cons d rest =>
    simp only [List.singleton_append, List.sorted_cons]
    constructor
    · intro b hb
      have hmem : b ∈ d :: rest := List.mem_of_mem_filter hb
      rcases List.mem_cons.mp hmem with rfl | hmem2
      · exact le_refl b
      · exact (List.sorted_cons.mp hsorted).1 b hmem2
    · exact hsorted.filter _

/-- Witness for the amended C7: two days, data missing on the second;
the record dates are the seed date, then the one usable day. -/
theorem runBacktest_records_spec_witness :
    (runBacktest ["AAPL"] [10, 11]
        (fun d _ => if d = 10 then some 5 else none)
        (fun _ _ _ => ("hold", 0)) 1000).2.map Prod.fst =
      (match [10, 11] with
       | [] => ([] : List ℤ)
       | d :: _ => [d]) ++
        [10, 11].filter (fun d => ["AAPL"].all
          (fun t => (((fun d _ => if d = 10 then some 5 else none) :
              ℤ → String → Option ℚ) d t).isSome)) ∧
    List.Sorted (· ≤ ·) ((runBacktest ["AAPL"] [10, 11]
        (fun d _ => if d = 10 then some 5 else none)
        (fun _ _ _ => ("hold", 0)) 1000).2.map Prod.fst) :=
  runBacktest_records_spec ["AAPL"] [10, 11]
    (fun d _ => if d = 10 then some 5 else none)
    (fun _ _ _ => ("hold", 0)) 1000 (by simp)

/-- Counterexample to C9 as stated: the claim (following the spec) says
the very first eligible day of the range is skipped — no record
appended, no trade attempted.  In the code `lookback_start` is the
current date minus 30 days (line 223), so the skip guard
`lookback_start == current_date_str` (line 228) never fires: on a
one-day range with prices available and an agent buying 1 share at 5,
the trade executes (cash drops from 1000 to 995) and the loop appends a
record (two records in total, with the seed). -/
theorem runBacktest_first_day_not_skipped :
    (runBacktest ["AAPL"] [10] (fun _ _ => some 5)
        (fun _ _ _ => ("buy", 1)) 1000).1.cash = 995 ∧
    ((runBacktest ["AAPL"] [10] (fun _ _ => some 5)
        (fun _ _ _ => ("buy", 1)) 1000).2).length = 2 := by
  constructor
  · norm_num [runBacktest, stepDay, lookbackStart, executeTrade, pyInt,
      calculatePortfolioValue, valueAux, initPortfolio]
  · norm_num [runBacktest, stepDay, lookbackStart, executeTrade, pyInt,
      calculatePortfolioValue, valueAux, initPortfolio]

/-- C9 (amended). The date loop skips a day entirely — the state,
including the value series, is untouched and no trade is attempted —
whenever usable price data is missing for any tracked ticker on that
day.  The code also contains the guard `lookback_start == current_date`
(line 228), but it can never fire because the lookback start is always
30 days before the current date; in particular the first eligible day is
*not* skipped on its account. -/
theorem runBacktest_skip_spec (tickers : List String)
    (data : ℤ → String → Option ℚ)
    (agent : ℤ → Portfolio → String → String × ℚ) :
    (∀ (st : Portfolio × List (ℤ × ℚ)) (d : ℤ),
      (∃ t ∈ tickers, data d t = none) →
        stepDay tickers data agent st d = st) ∧
    (∀ d : ℤ, lookbackStart d ≠ d) :=
  ⟨fun st d h => stepDay_missing_data st d h, lookbackStart_ne⟩

/-- Witness for the amended C9: a day with no data for the single
tracked ticker leaves the state untouched. -/
theorem runBacktest_skip_spec_witness :
    stepDay ["AAPL"] (fun _ _ => none) (fun _ _ _ => ("hold", 0))
      (initPortfolio 5, []) 10 = (initPortfolio 5, []) ∧
    lookbackStart 10 ≠ 10 :=
  ⟨(runBacktest_skip_spec ["AAPL"] (fun _ _ => none)
      (fun _ _ _ => ("hold", 0))).1 (initPortfolio 5, []) 10
      ⟨"AAPL", by simp, rfl⟩,
   (runBacktest_skip_spec ["AAPL"] (fun _ _ => none)
      (fun _ _ _ => ("hold", 0))).2 10⟩

theorem dailyReturns_length (vs : List ℚ) :
    (dailyReturns vs).length = vs.length - 1 := by
  match vs with
  | [] => rfl
  | [a] => rfl
  | a :: b :: rest =>
    simp only [dailyReturns, List.length_cons]
    rw [dailyReturns_length (b :: rest)]
    simp

theorem dailyReturns_replicate (n : ℕ) (C : ℚ) (hC : C ≠ 0) :
    dailyReturns (List.replicate (n + 1) C) = List.replicate n 0 := by
  induction n with
  | zero => rfl
  | succ m ih =>
    have h1 : List.replicate (m + 1 + 1) C = C :: C :: List.replicate m C := by
      simp [List.replicate_succ]
    have h2 : C :: List.replicate m C = List.replicate (m + 1) C := by
      simp [List.replicate_succ]
    rw [h1, dailyReturns, h2, ih, div_self hC]
    simp [List.replicate_succ]

theorem meanQ_replicate (n : ℕ) (x : ℚ) (hn : n ≠ 0) :
    meanQ (List.replicate n x) = x := by
  unfold meanQ
  rw [List.sum_replicate, List.length_replicate, nsmul_eq_mul]
  exact mul_div_cancel_left₀ x (by exact_mod_cast hn)

theorem sampleVarQ_replicate (n : ℕ) (x : ℚ) :
    sampleVarQ (List.replicate n x) = 0 := by
  unfold sampleVarQ
  cases n with
  | zero => simp
  | succ m =>
    rw [meanQ_replicate (m + 1) x (Nat.succ_ne_zero m), List.map_replicate]
    simp

theorem dailyRF_pos : 0 < dailyRF := by
  norm_num [dailyRF]

theorem excessReturns_replicate (m : ℕ) (C : ℚ) (hC : C ≠ 0) :
    excessReturns (List.replicate (m + 1) C) = List.replicate m (-dailyRF) := by
  unfold excessReturns
  rw [dailyReturns_replicate m C hC, List.map_replicate]
  norm_num

theorem sharpeUpdate_replicate (m : ℕ) (C : ℚ) (hm : 2 ≤ m) (hC : C ≠ 0) :
    sharpeUpdate (List.replicate (m + 1) C) = some 0 := by
  unfold sharpeUpdate
  rw [if_neg, if_neg]
  · rw [excessReturns_replicate m C hC]
    unfold stdQ
    rw [sampleVarQ_replicate]
    push_cast
    rw [Real.sqrt_zero]
    norm_num
  · rw [dailyReturns_replicate m C hC, List.length_replicate]
    omega

theorem sortinoUpdate_replicate (m : ℕ) (C : ℚ) (hm : 2 ≤ m) (hC : C ≠ 0) :
    sortinoUpdate (List.replicate (m + 1) C) = some 0 := by
  have hfilter : (excessReturns (List.replicate (m + 1) C)).filter
      (fun r => decide (r < 0)) = List.replicate m (-dailyRF) := by
    rw [excessReturns_replicate m C hC]
    refine List.filter_eq_self.mpr ?_
    intro a ha
    have hax : a = -dailyRF := List.eq_of_mem_replicate ha
    subst hax
    simpa using dailyRF_pos
  unfold sortinoUpdate
  rw [if_neg, if_pos, if_neg, if_neg]
  · rw [excessReturns_replicate m C hC,
      meanQ_replicate m (-dailyRF) (by omega)]
    simpa using dailyRF_pos.le
  · rw [hfilter]
    unfold stdQ
    rw [sampleVarQ_replicate]
    push_cast
    rw [Real.sqrt_zero]
    norm_num
  · rw [hfilter, List.length_replicate]
    omega
  · rw [dailyReturns_replicate m C hC, List.length_replicate]
    omega

theorem valueAux_initPortfolio (C P acc : ℚ) (ts : List String) :
    valueAux (initPortfolio C) (fun _ => some P) acc ts = some acc := by
  induction ts generalizing acc with
  | nil => rfl
  | cons t ts ih =>
    have h0 : ((initPortfolio C).positions t).shares = 0 := rfl
    simp only [valueAux, h0, Int.cast_zero, zero_mul, add_zero]
    exact ih acc

theorem map_snd_pair_const (l : List ℤ) (C : ℚ) :
    (l.map (fun x => ((x, C) : ℤ × ℚ))).map Prod.snd =
      List.replicate l.length C := by
  induction l with
  | nil => rfl
  | cons d rest ih => simp [ih, List.replicate_succ]

theorem foldl_hold_noop (tickers : List String) (p : Portfolio)
    (f : String → ℚ) :
    tickers.foldl (fun q t => (executeTrade q t "hold" 0 (f t)).2) p = p := by
  induction tickers generalizing p with
  | nil => rfl
  | cons t ts ih => simp [executeTrade_nonpos le_rfl, ih]

theorem foldl_stepDay_hold (tickers : List String) (dates : List ℤ)
    (P C : ℚ) (rec : List (ℤ × ℚ)) :
    dates.foldl
        (stepDay tickers (fun _ _ => some P) (fun _ _ _ => ("hold", 0)))
        (initPortfolio C, rec) =
      (initPortfolio C, rec ++ dates.map (fun d => (d, C))) := by
  induction dates generalizing rec with
  | nil => simp
  | cons d rest ih =>
    rw [List.foldl_cons,
      stepDay_usable (initPortfolio C, rec) d (by simp)]
    have hfold : tickers.foldl (fun p t =>
        (executeTrade p t (((fun _ _ _ => (("hold", 0) : String × ℚ)) d
            (initPortfolio C, rec).1) t).1
          (((fun _ _ _ => (("hold", 0) : String × ℚ)) d
            (initPortfolio C, rec).1) t).2
          ((((fun _ _ => some P) : ℤ → String → Option ℚ) d t).getD 0)).2)
        (initPortfolio C, rec).1 = initPortfolio C :=
      foldl_hold_noop tickers (initPortfolio C) (fun _ => P)
    rw [hfold]
    rw [show calculatePortfolioValue (initPortfolio C) tickers
        (((fun _ _ => some P) : ℤ → String → Option ℚ) d) = some C from
      valueAux_initPortfolio C P C tickers]
    rw [ih]
    simp

/-- C8. (a) A run with no trades (an agent that always holds) and a
flat positive price over at least 4 days records a constant portfolio
value series, and the incremental Sharpe and Sortino ratios on that
series are exactly 0.  (b) In general, whenever the standard deviation
of the excess daily returns is below `1e-12` (and at least two returns
exist, so the metrics are computed at all), the Sharpe ratio is defined
as 0 instead of dividing by zero. -/
theorem flat_run_zero_ratios :
    (∀ (tickers : List String) (dates : List ℤ) (C P : ℚ),
      0 < C → 0 < P → 4 ≤ dates.length →
      (∀ r ∈ (runBacktest tickers dates (fun _ _ => some P)
          (fun _ _ _ => ("hold", 0)) C).2, r.2 = C) ∧
      sharpeUpdate ((runBacktest tickers dates (fun _ _ => some P)
          (fun _ _ _ => ("hold", 0)) C).2.map Prod.snd) = some 0 ∧
      sortinoUpdate ((runBacktest tickers dates (fun _ _ => some P)
          (fun _ _ _ => ("hold", 0)) C).2.map Prod.snd) = some 0) ∧
    (∀ vs : List ℚ, 2 ≤ (dailyReturns vs).length →
      stdQ (excessReturns vs) < 1e-12 → sharpeUpdate vs = some 0) := by
  constructor
  · intro tickers dates C P hC hP hlen
    have hrun : runBacktest tickers dates (fun _ _ => some P)
        (fun _ _ _ => ("hold", 0)) C =
        ((match dates with
          | [] => (initPortfolio C, ([] : List (ℤ × ℚ)))
          | d :: _ => (initPortfolio C,
              [(d, C)] ++ dates.map (fun x => (x, C)))) :
          Portfolio × List (ℤ × ℚ)) := by
      unfold runBacktest
      cases dates with
      | nil => rfl
      | cons d rest => rw [foldl_stepDay_hold]
    cases dates with
    | nil => simp at hlen
    | cons d rest =>
      rw [hrun]
      have hsnd : (([(d, C)] ++ (d :: rest).map (fun x => (x, C))).map
          Prod.snd) = List.replicate (rest.length + 1 + 1) C := by
        rw [List.map_append, map_snd_pair_const]
        simp [List.replicate_succ]
      have hm2 : 2 ≤ rest.length + 1 := by
        simp only [List.length_cons] at hlen
        omega
      refine ⟨?_, ?_, ?_⟩
      · intro r hr
        simp only [List.singleton_append, List.mem_cons, List.mem_map] at hr
        rcases hr with rfl | ⟨x, _, rfl⟩ <;> rfl
      · rw [hsnd]
        exact sharpeUpdate_replicate (rest.length + 1) C hm2 hC.ne'
      · rw [hsnd]
        exact sortinoUpdate_replicate (rest.length + 1) C hm2 hC.ne'
  · intro vs hlen hstd
    unfold sharpeUpdate
    rw [if_neg (by omega), if_neg (not_lt.mpr hstd.le)]

/-- Witness for C8: four flat days at price 1 from cash 1, and the
series `[1, 1, 1]` whose excess-return deviation is below the epsilon. -/
theorem flat_run_zero_ratios_witness :
    ((∀ r ∈ (runBacktest ["AAPL"] [1, 2, 3, 4] (fun _ _ => some 1)
        (fun _ _ _ => ("hold", 0)) 1).2, r.2 = 1) ∧
      sharpeUpdate ((runBacktest ["AAPL"] [1, 2, 3, 4] (fun _ _ => some 1)
          (fun _ _ _ => ("hold", 0)) 1).2.map Prod.snd) = some 0 ∧
      sortinoUpdate ((runBacktest ["AAPL"] [1, 2, 3, 4] (fun _ _ => some 1)
          (fun _ _ _ => ("hold", 0)) 1).2.map Prod.snd) = some 0) ∧
    sharpeUpdate [1, 1, 1] = some 0 := by
  constructor
  · exact flat_run_zero_ratios.1 ["AAPL"] [1, 2, 3, 4] 1 1 (by norm_num)
      (by norm_num) (by simp)
  · refine flat_run_zero_ratios.2 [1, 1, 1] ?_ ?_
    · norm_num [dailyReturns]
    · have hvar : sampleVarQ (excessReturns [1, 1, 1]) = 0 := by
        norm_num [excessReturns, dailyReturns, sampleVarQ, meanQ, dailyRF]
      unfold stdQ
      rw [hvar]
      push_cast
      rw [Real.sqrt_zero]
      norm_num

theorem drawdownsAux_length (m : ℚ) (l : List ℚ) :
    (drawdownsAux m l).length = l.length := by
  induction l generalizing m with
  | nil => rfl
  | cons v rest ih => simp [drawdownsAux, ih]

theorem drawdowns_length (vs : List ℚ) :
    (drawdowns vs).length = vs.length := by
  cases vs with
  | nil => rfl
  | cons v rest => simp [drawdowns, drawdownsAux_length]

/-- Counterexample to C5: on the 4-record prefix `[100, 200, 400, 800]`
the incremental computation drops the first (NaN) return and sees the
constant return series `[1, 1, 1]`, so its excess-return deviation is 0
and its Sharpe ratio is the guard value 0; the exhaustive computation
replaces the first NaN with 0 (`fillna(0)`, line 459), sees
`[0, 1, 1, 1]` with sample deviation `1/2`, and returns a strictly
positive Sharpe ratio.  The two computations therefore disagree on the
same records (and `analyze_performance` computes no Sortino ratio at
all). -/
theorem metrics_consistency_counterexample :
    sharpeUpdate [100, 200, 400, 800] = some 0 ∧
    0 < sharpeAnalyze [100, 200, 400, 800] ∧
    sharpeUpdate [100, 200, 400, 800] ≠
      some (sharpeAnalyze [100, 200, 400, 800]) := by
  have hret : dailyReturns [100, 200, 400, 800] = [1, 1, 1] := by
    norm_num [dailyReturns]
  have hvar0 : sampleVarQ (excessReturns [100, 200, 400, 800]) = 0 := by
    norm_num [excessReturns, hret, sampleVarQ, meanQ, dailyRF]
  have hstd0 : stdQ (excessReturns [100, 200, 400, 800]) = 0 := by
    unfold stdQ
    rw [hvar0]
    push_cast
    exact Real.sqrt_zero
  have hsharpe : sharpeUpdate [100, 200, 400, 800] = some 0 := by
    unfold sharpeUpdate
    rw [if_neg (by rw [hret]; norm_num), if_neg (by rw [hstd0]; norm_num)]
  have hrets : dailyReturnsAnalyze [100, 200, 400, 800] = [0, 1, 1, 1] := by
    simp only [dailyReturnsAnalyze]
    rw [hret]
  have hmean : meanQ [0, 1, 1, 1] = 3 / 4 := by
    norm_num [meanQ]
  have hvar : sampleVarQ ([0, 1, 1, 1] : List ℚ) = 1 / 4 := by
    norm_num [sampleVarQ, meanQ]
  have hstd : stdQ ([0, 1, 1, 1] : List ℚ) = 1 / 2 := by
    unfold stdQ
    rw [hvar]
    rw [show (((1 : ℚ) / 4 : ℚ) : ℝ) = ((1 : ℝ) / 2) ^ 2 by norm_num]
    exact Real.sqrt_sq (by norm_num)
  have hpos : 0 < sharpeAnalyze [100, 200, 400, 800] := by
    unfold sharpeAnalyze
    rw [hrets, if_pos (by rw [hstd]; norm_num)]
    rw [hstd, hmean]
    apply mul_pos
    · exact Real.sqrt_pos.mpr (by norm_num)
    · apply div_pos
      · have hq : (0 : ℚ) < 3 / 4 - dailyRF := by norm_num [dailyRF]
        exact_mod_cast hq
      · norm_num
  refine ⟨hsharpe, hpos, ?_⟩
  rw [hsharpe]
  intro h
  have h0 : (0 : ℝ) = sharpeAnalyze [100, 200, 400, 800] := Option.some.inj h
  rw [← h0] at hpos
  exact lt_irrefl 0 hpos

/-- C5 (amended). Of the three metrics, only the maximum drawdown is
computed consistently: for every value-series prefix of length at least
4, the incremental maximum drawdown equals the exhaustive fallback
computation on the same records (both are `drawdown.min() * 100` over
the running-maximum drawdown series).  The Sharpe ratios of the two
paths disagree in general — the exhaustive path injects an artificial
first 0 return via `fillna(0)` instead of dropping it, takes its
deviation over all `k` entries, and subtracts the risk-free rate from
the mean only — and the exhaustive path produces no Sortino ratio at
all. -/
theorem maxDrawdown_consistency (vs : List ℚ) (hlen : 4 ≤ vs.length) :
    maxDrawdownUpdate vs = some (maxDrawdownAnalyze vs) := by
  unfold maxDrawdownUpdate maxDrawdownAnalyze
  rw [if_neg (by rw [dailyReturns_length]; omega),
    if_pos (by rw [drawdowns_length]; omega)]

/-- Witness for the amended C5: on the spec's own example series
`[100, 120, 90, 130]` both computations give the same maximum drawdown
(−25%). -/
theorem maxDrawdown_consistency_witness :
    maxDrawdownUpdate [100, 120, 90, 130] =
      some (maxDrawdownAnalyze [100, 120, 90, 130]) :=
  maxDrawdown_consistency [100, 120, 90, 130] (by norm_num)

end Backtester
